import Mathlib

/-!
Shallow embedding of `scrape.py`, a directory-walking file scraper that
filters files by extension, size and ignore substrings, accumulates the
accepted records together with running totals, and serializes the result.

Strings are modelled as lists of characters.  The filesystem and OS layer
(stat, file read, the `os.walk` enumeration, the clock) is an explicit
oracle passed to every function that performs I/O in the source; fallible
operations return `Option`.  The exception that the walk may raise
mid-enumeration is modelled by an optional cut position together with an
`Except`-valued walk body that `scrape_directory` catches, mirroring the
try/except/finally of the source.
-/

namespace Scrape

/-- Strings as lists of characters. -/
abbrev Str := List Char

/-- Character list of a string literal. -/
def str (s : String) : Str := s.toList

/-- Does `pat` occur at the start of `s`?  Helper for substring tests. -/
def strStarts : Str → Str → Bool
  | [], _ => true
  | _ :: _, [] => false
  | a :: as, b :: bs => a = b && strStarts as bs

/-- Python substring containment `needle in hay`. -/
def isSub (needle : Str) : Str → Bool
  | [] => needle.isEmpty
  | c :: t => strStarts needle (c :: t) || isSub needle t

/-- Python `s.split(sep)` for a one-character separator. -/
def splitOnChar (sep : Char) : Str → List Str
  | [] => [[]]
  | c :: rest =>
    match splitOnChar sep rest with
    | [] => [[]]
    | h :: t => if c = sep then [] :: h :: t else (c :: h) :: t

/-- Python `sep.join(parts)` for a one-character separator. -/
def joinSep (sep : Char) : List Str → Str
  | [] => []
  | [x] => x
  | x :: xs => x ++ sep :: joinSep sep xs

/-- Modelled `os.path.join` (posixpath) on two components. -/
def joinPath (a b : Str) : Str :=
  if strStarts (str "/") b then b
  else if a.isEmpty || (a.getLastD ' ' == '/') then a ++ b
  else a ++ '/' :: b

/-- Modelled `posixpath.split`: cut after the last slash.  The head keeps
its trailing slashes here; `dirname` strips them as the source does. -/
def splitSlash : Str → Str × Str
  | [] => ([], [])
  | c :: rest =>
    if rest.contains '/' then
      (c :: (splitSlash rest).1, (splitSlash rest).2)
    else if c = '/' then ([c], rest)
    else ([], c :: rest)

/-- Modelled `os.path.basename`. -/
def basename (p : Str) : Str := (splitSlash p).2

/-- Modelled `os.path.dirname`: the head of the split, with trailing
slashes stripped unless the head is all slashes. -/
def dirname (p : Str) : Str :=
  let h := (splitSlash p).1
  if h.isEmpty || h.all (fun c => c == '/') then h
  else (h.reverse.dropWhile (fun c => c == '/')).reverse

/-- Component loop of modelled `posixpath.normpath`; `acc` holds the
`new_comps` list in reverse, so append is cons, pop is tail and the last
element is the head. -/
def normAux (slashes : Nat) : List Str → List Str → List Str
  | [], acc => acc.reverse
  | comp :: rest, acc =>
    if comp.isEmpty || comp == str "." then normAux slashes rest acc
    else if comp != str ".." || (slashes == 0 && acc.isEmpty)
        || (!acc.isEmpty && acc.headD [] == str "..") then
      normAux slashes rest (comp :: acc)
    else if !acc.isEmpty then normAux slashes rest acc.tail
    else normAux slashes rest acc

/-- Modelled `posixpath.normpath`: the empty path maps to a dot, one or
two leading slashes are preserved, and the dot-resolving component loop
runs over the slash-separated parts. -/
def normpath (path : Str) : Str :=
  if path.isEmpty then str "." else
  let slashes : Nat :=
    match path with
    | '/' :: '/' :: '/' :: _ => 1
    | '/' :: '/' :: _ => 2
    | '/' :: _ => 1
    | _ => 0
  let joined := joinSep '/' (normAux slashes (splitOnChar '/' path) [])
  let res := List.replicate slashes '/' ++ joined
  if res.isEmpty then str "." else res

/-- The filesystem/OS oracle: `stat` and `readf` return `none` where the
corresponding Python call raises, `walk` gives the `os.walk` enumeration
of a directory as (root, filenames) pairs in top-down order, `walkErr d =
some k` means enumerating `d` raises after `k` entries were yielded, and
`now` is the clock used for the scrape timestamp. -/
structure Fs where
  stat : Str → Option Int
  readf : Str → Option Str
  walk : Str → List (Str × List Str)
  walkErr : Str → Option Nat
  now : Str

/-- One accepted file record (the ScrapeFile dataclass). -/
structure ScrapeFile where
  name : Str
  directory : Str
  content : Str
  size : Int
  scraped_at : Str
deriving DecidableEq

/-- get_file_extension: the last dot-separated part of the filename when
a dot is present, the empty string otherwise. -/
def get_file_extension (filename : Str) : Str :=
  let parts := splitOnChar '.' filename
  if parts.length > 1 then parts.getLastD [] else []

/-- get_file_size: `os.path.getsize`, with 0 returned when the stat
raises (the exception is caught and logged). -/
def get_file_size (fs : Fs) (filename : Str) : Int :=
  match fs.stat filename with
  | some n => n
  | none => 0

/-- get_file_content: the file text, `none` when the read raises (the
exception is caught and logged). -/
def get_file_content (fs : Fs) (filename : Str) : Option Str :=
  fs.readf filename

/-- confirm_extension: membership of the extracted extension in the
extension set. -/
def confirm_extension (filename : Str) (extensions : List Str) : Bool :=
  decide (get_file_extension filename ∈ extensions)

/-- file_in_ignore_dirs: loop over the ignore entries, testing substring
containment in the candidate path. -/
def file_in_ignore_dirs (filename : Str) (ignore_dirs : List Str) : Bool :=
  match ignore_dirs with
  | [] => false
  | d :: rest => if isSub d filename then true else file_in_ignore_dirs filename rest

/-- scrape_file: extension gate, size gate (`not size or size <= 0 or
size > max_size`), content gate (`not content` also rejects the empty
string), then the record construction. -/
def scrape_file (fs : Fs) (filename : Str) (extensions : List Str) (max_size : Int) :
    Option ScrapeFile :=
  if !confirm_extension filename extensions then none
  else
    let size := get_file_size fs filename
    if size = 0 ∨ size ≤ 0 ∨ size > max_size then none
    else
      match get_file_content fs filename with
      | none => none
      | some content =>
        if content.isEmpty then none
        else some { name := basename filename, directory := dirname filename,
                    content := content, size := size, scraped_at := fs.now }

/-- Accumulator state of a walk: (files, total_size, file_count). -/
abbrev St := List ScrapeFile × Int × Nat

/-- The inner `for filename in filenames` loop of scrape_directory; on
overflow of the running total the `break` returns the state without
continuing this filename list, and without incrementing the counter. -/
def scanFiles (fs : Fs) (extensions : List Str) (max_size max_total_size : Int)
    (ignore_dirs : List Str) (root : Str) : List Str → St → St
  | [], st => st
  | filename :: rest, (files, total_size, file_count) =>
    let filepath := joinPath root filename
    if file_in_ignore_dirs filepath ignore_dirs then
      scanFiles fs extensions max_size max_total_size ignore_dirs root rest
        (files, total_size, file_count)
    else
      match scrape_file fs filepath extensions max_size with
      | none =>
        scanFiles fs extensions max_size max_total_size ignore_dirs root rest
          (files, total_size, file_count)
      | some file =>
        let files2 := files ++ [file]
        let total2 := total_size + get_file_size fs filepath
        if total2 > max_total_size then (files2, total2, file_count)
        else
          scanFiles fs extensions max_size max_total_size ignore_dirs root rest
            (files2, total2, file_count + 1)

/-- The outer `for root, _, filenames in os.walk(...)` loop inside the
`try`; `err = some k` makes the enumeration raise after `k` entries were
yielded, carrying to the handler the state accumulated so far. -/
def scanRootsE (fs : Fs) (extensions : List Str) (max_size max_total_size : Int)
    (ignore_dirs : List Str) : List (Str × List Str) → Option Nat → St → Except St St
  | [], none, st => Except.ok st
  | [], some 0, st => Except.error st
  | [], some (_ + 1), st => Except.ok st
  | (_, _) :: _, some 0, st => Except.error st
  | (root, filenames) :: rest, none, st =>
    scanRootsE fs extensions max_size max_total_size ignore_dirs rest none
      (scanFiles fs extensions max_size max_total_size ignore_dirs root filenames st)
  | (root, filenames) :: rest, some (n + 1), st =>
    scanRootsE fs extensions max_size max_total_size ignore_dirs rest (some n)
      (scanFiles fs extensions max_size max_total_size ignore_dirs root filenames st)

/-- The except/finally of scrape_directory: whether the walk finished or
raised, the accumulated state is returned. -/
def runWalk : Except St St → St
  | Except.ok st => st
  | Except.error st => st

/-- scrape_directory. -/
def scrape_directory (fs : Fs) (directory : Str) (extensions : List Str)
    (max_size max_total_size : Int) (ignore_dirs : List Str) : St :=
  runWalk (scanRootsE fs extensions max_size max_total_size ignore_dirs
    (fs.walk directory) (fs.walkErr directory) ([], 0, 0))

/-- An error-free walk over an explicit list of enumeration entries. -/
def walk_accumulate (fs : Fs) (extensions : List Str) (max_size max_total_size : Int)
    (ignore_dirs : List Str) (entries : List (Str × List Str)) : St :=
  runWalk (scanRootsE fs extensions max_size max_total_size ignore_dirs entries none ([], 0, 0))

/-- The directory loop of scrape_directories: extend the accumulators
with the directory's result, then stop if the global total overflowed. -/
def scrape_directories_go (fs : Fs) (extensions : List Str)
    (max_size max_total_size : Int) (ignore_dirs : List Str) : List Str → St → St
  | [], st => st
  | d :: rest, st =>
    let r := scrape_directory fs d extensions max_size max_total_size ignore_dirs
    let files2 := st.1 ++ r.1
    let total2 := st.2.1 + r.2.1
    let count2 := st.2.2 + r.2.2
    if total2 > max_total_size then (files2, total2, count2)
    else scrape_directories_go fs extensions max_size max_total_size ignore_dirs rest
      (files2, total2, count2)

/-- scrape_directories. -/
def scrape_directories (fs : Fs) (directories : List Str) (extensions : List Str)
    (max_size max_total_size : Int) (ignore_dirs : List Str) : St :=
  scrape_directories_go fs extensions max_size max_total_size ignore_dirs directories ([], 0, 0)

/-- remove_dot_from_extension; `none` models the IndexError raised by
`extension[0]` on the empty string. -/
def remove_dot_from_extension : Str → Option Str
  | [] => none
  | c :: rest => if c = '.' then some rest else some (c :: rest)

/-- The seen-set loop of remove_duplicate_paths; the Python set of
normalized paths is a list of keys here. -/
def remove_duplicate_paths_go : List Str → List Str → List Str
  | [], _ => []
  | p :: rest, seen =>
    if normpath p ∈ seen then remove_duplicate_paths_go rest seen
    else p :: remove_duplicate_paths_go rest (normpath p :: seen)

/-- remove_duplicate_paths. -/
def remove_duplicate_paths (paths : List Str) : List Str :=
  remove_duplicate_paths_go paths []

/-- Outcomes of main: an uncaught IndexError from extension
normalization, one of the two exit(1) paths, or a scrape result. -/
inductive MainOutcome where
  | indexError : MainOutcome
  | fatalNoDirs : MainOutcome
  | fatalNoExts : MainOutcome
  | ok : St → MainOutcome
deriving DecidableEq

/-- main, after argument parsing: extension normalization (which can
raise an IndexError), dedup/normalization of the ignore list, directory
dedup, the two fatal-configuration checks, then the scrape.  The Python
`set(...)` of extensions is kept as a list, which has the same
membership semantics. -/
def main (fs : Fs) (extensions_arg dirs_arg ignore_dirs_arg : Str)
    (max_size max_total_size : Int) : MainOutcome :=
  match (splitOnChar ',' extensions_arg).mapM remove_dot_from_extension with
  | none => MainOutcome.indexError
  | some extensions =>
    let directories0 := splitOnChar ',' dirs_arg
    let ignore1 := remove_duplicate_paths (splitOnChar ',' ignore_dirs_arg)
    let ignore_dirs := ignore1.map normpath
    let directories := remove_duplicate_paths directories0
    if directories.isEmpty then MainOutcome.fatalNoDirs
    else if extensions.isEmpty then MainOutcome.fatalNoExts
    else MainOutcome.ok
      (scrape_directories fs directories extensions max_size max_total_size ignore_dirs)

/-- Spec-side extension extractor, following the spec's words: the
substring after the last dot of the filename, the empty string when the
filename has no dot. -/
def spec_ext (filename : Str) : Str :=
  if filename.contains '.' then
    (filename.reverse.takeWhile (fun c => c != '.')).reverse
  else []

/-- A concrete filesystem: directory `d` holds `a.py` (60 bytes) and
`b.py` (50 bytes) at the top and `c.py` (40 bytes) in a subdirectory;
`d/big.py` exists on disk (5000 bytes) but is not enumerated. -/
def fsNest : Fs where
  stat := fun p =>
    if p = str "d/a.py" then some 60
    else if p = str "d/b.py" then some 50
    else if p = str "d/sub/c.py" then some 40
    else if p = str "d/big.py" then some 5000
    else none
  readf := fun p =>
    if p = str "d/a.py" then some (str "x")
    else if p = str "d/b.py" then some (str "x")
    else if p = str "d/sub/c.py" then some (str "x")
    else if p = str "d/big.py" then some (str "x")
    else none
  walk := fun d =>
    if d = str "d" then
      [(str "d", [str "a.py", str "b.py"]), (str "d/sub", [str "c.py"])]
    else []
  walkErr := fun _ => none
  now := str "T"

/-- A concrete filesystem realizing the spec's scenario: `docs/` holds
`a.py` (50 bytes), `b.txt` (30 bytes) and `sub/c.py` (20 bytes). -/
def fsDocs : Fs where
  stat := fun p =>
    if p = str "docs/a.py" then some 50
    else if p = str "docs/b.txt" then some 30
    else if p = str "docs/sub/c.py" then some 20
    else none
  readf := fun p =>
    if p = str "docs/a.py" then some (str "A")
    else if p = str "docs/b.txt" then some (str "B")
    else if p = str "docs/sub/c.py" then some (str "C")
    else none
  walk := fun d =>
    if d = str "docs" then
      [(str "docs", [str "a.py", str "b.txt"]), (str "docs/sub", [str "c.py"])]
    else []
  walkErr := fun _ => none
  now := str "T"

/-- A filesystem on which every stat and every read raises, and the walk
enumeration of `r` raises before yielding its first entry. -/
def fsErr : Fs where
  stat := fun _ => none
  readf := fun _ => none
  walk := fun d => if d = str "r" then [(str "r", [str "x.py"])] else []
  walkErr := fun d => if d = str "r" then some 0 else none
  now := str "T"

/-- The record scraped for `d/a.py` on `fsNest`. -/
def fileA : ScrapeFile :=
  { name := str "a.py", directory := str "d", content := str "x",
    size := 60, scraped_at := str "T" }

/-- The record scraped for `d/b.py` on `fsNest`. -/
def fileB : ScrapeFile :=
  { name := str "b.py", directory := str "d", content := str "x",
    size := 50, scraped_at := str "T" }

/-- The record scraped for `d/sub/c.py` on `fsNest`. -/
def fileC : ScrapeFile :=
  { name := str "c.py", directory := str "d/sub", content := str "x",
    size := 40, scraped_at := str "T" }

/-- Sum of the `size` fields of a list of records. -/
def sizeSum (l : List ScrapeFile) : Int := (l.map (fun f => f.size)).sum

theorem sizeSum_append (l₁ l₂ : List ScrapeFile) :
    sizeSum (l₁ ++ l₂) = sizeSum l₁ + sizeSum l₂ := by
  simp [sizeSum]

theorem scrape_file_some (fs : Fs) (fn : Str) (exts : List Str) (ms : Int)
    (f : ScrapeFile) (h : scrape_file fs fn exts ms = some f) :
    f.size = get_file_size fs fn ∧ 0 < f.size ∧ f.size ≤ ms ∧
    f.name = basename fn ∧ f.directory = dirname fn ∧
    get_file_extension fn ∈ exts := by
  simp only [scrape_file] at h
  split at h
  · exact absurd h (by simp)
  · rename_i hconf
    split at h
    · exact absurd h (by simp)
    · rename_i hsize
      split at h
      · exact absurd h (by simp)
      · split at h
        · exact absurd h (by simp)
        · cases h
          push_neg at hsize
          obtain ⟨h0, hle, hub⟩ := hsize
          refine ⟨rfl, by dsimp only; omega, by dsimp only; omega, rfl, rfl, ?_⟩
          simp only [confirm_extension, Bool.not_eq_true', decide_eq_false_iff_not,
            not_not] at hconf
          exact of_decide_eq_true (by simpa using hconf)

theorem scrape_file_stat_none (fs : Fs) (fn : Str) (exts : List Str) (ms : Int)
    (h : fs.stat fn = none) : scrape_file fs fn exts ms = none := by
  simp only [scrape_file, get_file_size, h]
  split
  · rfl
  · simp

theorem scrape_file_read_none (fs : Fs) (fn : Str) (exts : List Str) (ms : Int)
    (h : fs.readf fn = none) : scrape_file fs fn exts ms = none := by
  simp only [scrape_file, get_file_content, h]
  split
  · rfl
  · split
    · rfl
    · rfl

theorem scrape_file_bad_size (fs : Fs) (fn : Str) (exts : List Str) (ms : Int)
    (s : Int) (hstat : fs.stat fn = some s) (hbad : s ≤ 0 ∨ s > ms) :
    scrape_file fs fn exts ms = none := by
  simp only [scrape_file, get_file_size, hstat]
  split
  · rfl
  · split
    · rfl
    · rename_i hcond
      exact absurd (by omega : s = 0 ∨ s ≤ 0 ∨ s > ms) hcond

theorem scrape_file_bad_ext (fs : Fs) (fn : Str) (exts : List Str) (ms : Int)
    (h : get_file_extension fn ∉ exts) : scrape_file fs fn exts ms = none := by
  simp only [scrape_file]
  split
  · rfl
  · rename_i hconf
    simp only [confirm_extension, Bool.not_eq_true', decide_eq_false_iff_not,
      not_not] at hconf
    exact absurd hconf h

theorem scanFiles_pres (fs : Fs) (exts : List Str) (ms mts : Int) (ig : List Str)
    (root : Str) (P : St → Prop)
    (hkeep : ∀ files total count f fp, scrape_file fs fp exts ms = some f →
      P (files, total, count) →
      P (files ++ [f], total + get_file_size fs fp, count) ∧
      P (files ++ [f], total + get_file_size fs fp, count + 1)) :
    ∀ fns st, P st → P (scanFiles fs exts ms mts ig root fns st) := by
  intro fns
  induction fns with
  | nil =>
    intro st h
    simpa [scanFiles] using h
  | cons fn rest ih =>
    intro st h
    obtain ⟨files, total, count⟩ := st
    simp only [scanFiles]
    split
    · exact ih _ h
    · split
      · exact ih _ h
      · rename_i file heq
        split
        · exact (hkeep files total count file _ heq h).1
        · exact ih _ (hkeep files total count file _ heq h).2

theorem scanRootsE_pres (fs : Fs) (exts : List Str) (ms mts : Int) (ig : List Str)
    (P : St → Prop)
    (hscan : ∀ root fns st, P st → P (scanFiles fs exts ms mts ig root fns st)) :
    ∀ entries err st, P st →
      P (runWalk (scanRootsE fs exts ms mts ig entries err st)) := by
  intro entries
  induction entries with
  | nil =>
    intro err st h
    cases err with
    | none => simpa [scanRootsE, runWalk] using h
    | some k => cases k <;> simpa [scanRootsE, runWalk] using h
  | cons e rest ih =>
    obtain ⟨root, fns⟩ := e
    intro err st h
    cases err with
    | none => exact ih none _ (hscan _ _ _ h)
    | some k =>
      cases k with
      | zero => simpa [scanRootsE, runWalk] using h
      | succ n => exact ih (some n) _ (hscan _ _ _ h)

theorem scrape_directories_go_pres (fs : Fs) (exts : List Str) (ms mts : Int)
    (ig : List Str) (P : St → Prop)
    (hstep : ∀ st d, P st →
      P (st.1 ++ (scrape_directory fs d exts ms mts ig).1,
         st.2.1 + (scrape_directory fs d exts ms mts ig).2.1,
         st.2.2 + (scrape_directory fs d exts ms mts ig).2.2)) :
    ∀ dirs st, P st → P (scrape_directories_go fs exts ms mts ig dirs st) := by
  intro dirs
  induction dirs with
  | nil =>
    intro st h
    simpa [scrape_directories_go] using h
  | cons d rest ih =>
    intro st h
    simp only [scrape_directories_go]
    split
    · exact hstep st d h
    · exact ih _ (hstep st d h)

theorem scanFiles_mem (fs : Fs) (exts : List Str) (ms mts : Int) (ig : List Str)
    (root : Str) :
    ∀ fns st f, f ∈ (scanFiles fs exts ms mts ig root fns st).1 →
      f ∈ st.1 ∨ ∃ fn, fn ∈ fns ∧
        file_in_ignore_dirs (joinPath root fn) ig = false ∧
        scrape_file fs (joinPath root fn) exts ms = some f := by
  intro fns
  induction fns with
  | nil =>
    intro st f h
    exact Or.inl (by simpa [scanFiles] using h)
  | cons fn rest ih =>
    intro st f h
    obtain ⟨files, total, count⟩ := st
    simp only [scanFiles] at h
    split at h
    · rcases ih _ _ h with h' | ⟨g, hg, h1, h2⟩
      · exact Or.inl h'
      · exact Or.inr ⟨g, List.mem_cons_of_mem _ hg, h1, h2⟩
    · rename_i hig
      split at h
      · rcases ih _ _ h with h' | ⟨g, hg, h1, h2⟩
        · exact Or.inl h'
        · exact Or.inr ⟨g, List.mem_cons_of_mem _ hg, h1, h2⟩
      · rename_i file heq
        have hig' : file_in_ignore_dirs (joinPath root fn) ig = false := by
          simpa using hig
        split at h
        · rcases List.mem_append.1 h with h' | h'
          · exact Or.inl h'
          · have he : f = file := by simpa using h'
            exact Or.inr ⟨fn, List.mem_cons_self _ _, hig', he ▸ heq⟩
        · rcases ih _ _ h with h' | ⟨g, hg, h1, h2⟩
          · rcases List.mem_append.1 h' with h'' | h''
            · exact Or.inl h''
            · have he : f = file := by simpa using h''
              exact Or.inr ⟨fn, List.mem_cons_self _ _, hig', he ▸ heq⟩
          · exact Or.inr ⟨g, List.mem_cons_of_mem _ hg, h1, h2⟩

theorem scanRootsE_mem (fs : Fs) (exts : List Str) (ms mts : Int) (ig : List Str) :
    ∀ entries err st f,
      f ∈ (runWalk (scanRootsE fs exts ms mts ig entries err st)).1 →
      f ∈ st.1 ∨ ∃ root fns fn, (root, fns) ∈ entries ∧ fn ∈ fns ∧
        file_in_ignore_dirs (joinPath root fn) ig = false ∧
        scrape_file fs (joinPath root fn) exts ms = some f := by
  intro entries
  induction entries with
  | nil =>
    intro err st f h
    cases err with
    | none => exact Or.inl (by simpa [scanRootsE, runWalk] using h)
    | some k => cases k <;> exact Or.inl (by simpa [scanRootsE, runWalk] using h)
  | cons e rest ih =>
    obtain ⟨root, fns⟩ := e
    intro err st f h
    have step : ∀ err', f ∈ (runWalk (scanRootsE fs exts ms mts ig rest err'
        (scanFiles fs exts ms mts ig root fns st))).1 →
        f ∈ st.1 ∨ ∃ r fl fn, (r, fl) ∈ (root, fns) :: rest ∧ fn ∈ fl ∧
          file_in_ignore_dirs (joinPath r fn) ig = false ∧
          scrape_file fs (joinPath r fn) exts ms = some f := by
      intro err' h'
      rcases ih err' _ _ h' with h'' | ⟨r, fl, fn, hmem, h1, h2, h3⟩
      · rcases scanFiles_mem fs exts ms mts ig root fns _ _ h'' with h3 | ⟨fn, h1, h2, h3⟩
        · exact Or.inl h3
        · exact Or.inr ⟨root, fns, fn, List.mem_cons_self _ _, h1, h2, h3⟩
      · exact Or.inr ⟨r, fl, fn, List.mem_cons_of_mem _ hmem, h1, h2, h3⟩
    cases err with
    | none => exact step none h
    | some k =>
      cases k with
      | zero => exact Or.inl (by simpa [scanRootsE, runWalk] using h)
      | succ n => exact step (some n) h

theorem scrape_directory_mem (fs : Fs) (d : Str) (exts : List Str) (ms mts : Int)
    (ig : List Str) (f : ScrapeFile)
    (h : f ∈ (scrape_directory fs d exts ms mts ig).1) :
    ∃ root fns fn, (root, fns) ∈ fs.walk d ∧ fn ∈ fns ∧
      file_in_ignore_dirs (joinPath root fn) ig = false ∧
      scrape_file fs (joinPath root fn) exts ms = some f := by
  rcases scanRootsE_mem fs exts ms mts ig (fs.walk d) (fs.walkErr d) ([], 0, 0) f h with
    h' | h'
  · exact absurd h' (List.not_mem_nil f)
  · exact h'

theorem scrape_directories_mem (fs : Fs) (dirs : List Str) (exts : List Str)
    (ms mts : Int) (ig : List Str) (f : ScrapeFile)
    (h : f ∈ (scrape_directories fs dirs exts ms mts ig).1) :
    ∃ d, d ∈ dirs ∧ f ∈ (scrape_directory fs d exts ms mts ig).1 := by
  have main : ∀ ds st, f ∈ (scrape_directories_go fs exts ms mts ig ds st).1 →
      f ∈ st.1 ∨ ∃ d, d ∈ ds ∧ f ∈ (scrape_directory fs d exts ms mts ig).1 := by
    intro ds
    induction ds with
    | nil =>
      intro st h'
      exact Or.inl (by simpa [scrape_directories_go] using h')
    | cons d rest ih =>
      intro st h'
      simp only [scrape_directories_go] at h'
      split at h'
      · rcases List.mem_append.1 h' with h'' | h''
        · exact Or.inl h''
        · exact Or.inr ⟨d, List.mem_cons_self _ _, h''⟩
      · rcases ih _ h' with h'' | ⟨d', hd, hmem⟩
        · rcases List.mem_append.1 h'' with h3 | h3
          · exact Or.inl h3
          · exact Or.inr ⟨d, List.mem_cons_self _ _, h3⟩
        · exact Or.inr ⟨d', List.mem_cons_of_mem _ hd, hmem⟩
  rcases main dirs ([], 0, 0) h with h' | h'
  · exact absurd h' (List.not_mem_nil f)
  · exact h'

theorem scrape_directory_total (fs : Fs) (d : Str) (exts : List Str) (ms mts : Int)
    (ig : List Str) :
    (scrape_directory fs d exts ms mts ig).2.1 =
      sizeSum (scrape_directory fs d exts ms mts ig).1 := by
  have hscan : ∀ root fns st, st.2.1 = sizeSum st.1 →
      (scanFiles fs exts ms mts ig root fns st).2.1 =
        sizeSum (scanFiles fs exts ms mts ig root fns st).1 := by
    intro root fns st h
    refine scanFiles_pres fs exts ms mts ig root (fun st => st.2.1 = sizeSum st.1)
      ?_ fns st h
    intro files total count f fp heq hP
    have hsz := (scrape_file_some fs fp exts ms f heq).1
    have h2 : sizeSum (files ++ [f]) = sizeSum files + f.size := by
      simp [sizeSum_append, sizeSum]
    refine ⟨?_, ?_⟩ <;> (dsimp only at hP ⊢; omega)
  simp only [scrape_directory]
  exact scanRootsE_pres fs exts ms mts ig (fun st => st.2.1 = sizeSum st.1) hscan
    (fs.walk d) (fs.walkErr d) ([], 0, 0) (by simp [sizeSum])

theorem scrape_directories_total (fs : Fs) (dirs : List Str) (exts : List Str)
    (ms mts : Int) (ig : List Str) :
    (scrape_directories fs dirs exts ms mts ig).2.1 =
      sizeSum (scrape_directories fs dirs exts ms mts ig).1 := by
  simp only [scrape_directories]
  refine scrape_directories_go_pres fs exts ms mts ig
    (fun st => st.2.1 = sizeSum st.1) ?_ dirs ([], 0, 0) (by simp [sizeSum])
  intro st d hP
  dsimp only
  rw [sizeSum_append, hP, scrape_directory_total fs d exts ms mts ig]

theorem scrape_directory_count (fs : Fs) (d : Str) (exts : List Str) (ms mts : Int)
    (ig : List Str) :
    (scrape_directory fs d exts ms mts ig).2.2 ≤
      (scrape_directory fs d exts ms mts ig).1.length := by
  have hscan : ∀ root fns st, st.2.2 ≤ st.1.length →
      (scanFiles fs exts ms mts ig root fns st).2.2 ≤
        (scanFiles fs exts ms mts ig root fns st).1.length := by
    intro root fns st h
    refine scanFiles_pres fs exts ms mts ig root (fun st => st.2.2 ≤ st.1.length)
      ?_ fns st h
    intro files total count f fp _ hP
    have h2 : (files ++ [f]).length = files.length + 1 := by simp
    refine ⟨?_, ?_⟩ <;> (dsimp only at hP ⊢; omega)
  simp only [scrape_directory]
  exact scanRootsE_pres fs exts ms mts ig (fun st => st.2.2 ≤ st.1.length) hscan
    (fs.walk d) (fs.walkErr d) ([], 0, 0) (by simp)

theorem takeWhile_append_of_all {p : Char → Bool} {l₁ : List Char} (l₂ : List Char)
    (h : ∀ c ∈ l₁, p c = true) :
    (l₁ ++ l₂).takeWhile p = l₁ ++ l₂.takeWhile p := by
  induction l₁ with
  | nil => simp
  | cons c rest ih =>
    have hc : p c = true := h c (List.mem_cons_self _ _)
    simp only [List.cons_append, List.takeWhile_cons, hc, if_true]
    rw [ih (fun x hx => h x (List.mem_cons_of_mem _ hx))]

theorem takeWhile_append_of_bad {p : Char → Bool} {l₁ : List Char} (l₂ : List Char)
    (c : Char) (hc : c ∈ l₁) (hpc : p c = false) :
    (l₁ ++ l₂).takeWhile p = l₁.takeWhile p := by
  induction l₁ with
  | nil => exact absurd hc (List.not_mem_nil c)
  | cons a rest ih =>
    rcases List.mem_cons.1 hc with h | h
    · subst h
      simp only [List.cons_append, List.takeWhile_cons, hpc]
      simp
    · simp only [List.cons_append, List.takeWhile_cons]
      split
      · rw [ih h]
      · rfl

theorem splitOnChar_ne_nil (sep : Char) (l : Str) : splitOnChar sep l ≠ [] := by
  cases l with
  | nil => simp [splitOnChar]
  | cons c rest =>
    rw [splitOnChar]
    cases h : splitOnChar sep rest with
    | nil => simp
    | cons h1 t =>
      dsimp only
      split <;> simp

theorem splitOnChar_no_sep (sep : Char) (l : Str) (h : sep ∉ l) :
    splitOnChar sep l = [l] := by
  induction l with
  | nil => rfl
  | cons c rest ih =>
    have h1 : ¬ c = sep := fun he => h (he ▸ List.mem_cons_self _ _)
    have h2 : sep ∉ rest := fun hm => h (List.mem_cons_of_mem _ hm)
    rw [splitOnChar, ih h2]
    simp [h1]

theorem splitOnChar_length (sep : Char) (l : Str) :
    1 < (splitOnChar sep l).length ↔ sep ∈ l := by
  induction l with
  | nil => simp [splitOnChar]
  | cons c rest ih =>
    rw [splitOnChar]
    cases h : splitOnChar sep rest with
    | nil => exact absurd h (splitOnChar_ne_nil sep rest)
    | cons h1 t =>
      rw [h] at ih
      by_cases hc : c = sep
      · subst hc
        simp only [if_pos rfl]
        simp [List.mem_cons]
      · simp only [if_neg hc]
        simp only [List.length_cons] at ih ⊢
        constructor
        · intro hlen
          exact List.mem_cons_of_mem _ (ih.1 (by omega))
        · intro hmem
          rcases List.mem_cons.1 hmem with he | hm
          · exact absurd he.symm hc
          · have := ih.2 hm
            omega

theorem splitOnChar_getLastD (sep : Char) (l : Str) :
    (splitOnChar sep l).getLastD [] =
      (l.reverse.takeWhile (fun c => c != sep)).reverse := by
  induction l with
  | nil => simp [splitOnChar]
  | cons c rest ih =>
    rw [splitOnChar]
    cases h : splitOnChar sep rest with
    | nil => exact absurd h (splitOnChar_ne_nil sep rest)
    | cons h1 t =>
      rw [h] at ih
      by_cases hmem : sep ∈ rest
      · have hrw : ((c :: rest).reverse.takeWhile (fun c => c != sep)).reverse =
            (rest.reverse.takeWhile (fun c => c != sep)).reverse := by
          rw [List.reverse_cons,
            takeWhile_append_of_bad [c] sep (by simpa using hmem) (by simp)]
        rw [hrw]
        by_cases hc : c = sep
        · subst hc
          simp only [if_pos rfl]
          rw [← ih]
          rcases t with _ | ⟨t1, ts⟩ <;> simp [List.getLastD_cons]
        · simp only [if_neg hc]
          rw [← ih]
          have ht : t ≠ [] := by
            intro he
            rw [he] at h
            have := (splitOnChar_length sep rest).2 hmem
            rw [h] at this
            simp at this
          rcases t with _ | ⟨t1, ts⟩
          · exact absurd rfl ht
          · simp [List.getLastD_cons]
      · have hrest : splitOnChar sep rest = [rest] := splitOnChar_no_sep sep rest hmem
        rw [hrest] at h
        cases h
        have hall : ∀ x ∈ rest.reverse, (fun c => c != sep) x = true := by
          intro x hx
          have : x ∈ rest := List.mem_reverse.1 hx
          simp only [bne_iff_ne, ne_eq, decide_eq_true_eq]
          exact fun he => hmem (he ▸ this)
        by_cases hc : c = sep
        · subst hc
          simp only [if_pos rfl]
          rw [List.reverse_cons, takeWhile_append_of_all [c] hall]
          simp [List.getLastD_cons]
        · simp only [if_neg hc]
          rw [List.reverse_cons, takeWhile_append_of_all [c] hall]
          simp only [List.takeWhile_cons]
          have : (c != sep) = true := by simpa using hc
          rw [this]
          simp [List.getLastD_cons]

theorem strStarts_append (q r : Str) : strStarts q (q ++ r) = true := by
  induction q with
  | nil => rfl
  | cons a as ih => simp [strStarts, ih]

theorem isSub_of_parts (q l r : Str) : isSub q (l ++ q ++ r) = true := by
  induction l with
  | nil =>
    cases hq : q ++ r with
    | nil =>
      obtain ⟨h1, h2⟩ := List.append_eq_nil.1 hq
      subst h1
      subst h2
      rfl
    | cons c t =>
      rw [List.nil_append, hq, isSub]
      rw [← hq, strStarts_append]
      simp
  | cons a as ih =>
    rw [List.cons_append, List.cons_append, isSub]
    simp only [Bool.or_eq_true]
    right
    simpa using ih

theorem strStarts_slash_false (p : Str) (h : '/' ∉ p) :
    strStarts (str "/") p = false := by
  cases p with
  | nil => rfl
  | cons c rest =>
    have : ¬ '/' = c := fun he => h (he ▸ List.mem_cons_self _ _)
    simp [str, strStarts, this]

theorem splitSlash_no_slash (p : Str) (h : '/' ∉ p) : splitSlash p = ([], p) := by
  cases p with
  | nil => rfl
  | cons c rest =>
    have h1 : ¬ c = '/' := fun he => h (he ▸ List.mem_cons_self _ _)
    have h2 : '/' ∉ rest := fun hm => h (List.mem_cons_of_mem _ hm)
    have h3 : rest.contains '/' = false := by
      rcases hc : rest.contains '/' with _ | _
      · rfl
      · exact absurd (List.elem_iff.1 hc) h2
    rw [splitSlash]
    simp [h3, h2, h1]

theorem exists_last_slash (p : Str) (hmem : '/' ∈ p) :
    ∃ d b, p = d ++ '/' :: b ∧ '/' ∉ b ∧ splitSlash p = (d ++ ['/'], b) := by
  induction p with
  | nil => cases hmem
  | cons c rest ih =>
    by_cases hr : '/' ∈ rest
    · obtain ⟨d, b, hp, hb, hs⟩ := ih hr
      have hc : rest.contains '/' = true := List.elem_iff.2 hr
      refine ⟨c :: d, b, by rw [hp]; rfl, hb, ?_⟩
      rw [splitSlash]
      simp [hc, hr, hs]
    · have hc : c = '/' := by
        rcases List.mem_cons.1 hmem with he | hm
        · exact he.symm
        · exact absurd hm hr
      have hcr : rest.contains '/' = false := by
        rcases hcc : rest.contains '/' with _ | _
        · rfl
        · exact absurd (List.elem_iff.1 hcc) hr
      subst hc
      refine ⟨[], rest, rfl, hr, ?_⟩
      rw [splitSlash]
      simp [hcr, hr]

theorem joinPath_nil (b : Str) (hb : strStarts (str "/") b = false) :
    joinPath [] b = b := by
  rw [joinPath, hb]
  simp

theorem joinPath_slash_end (a b : Str) (hb : strStarts (str "/") b = false)
    (hl : (a.getLastD ' ' == '/') = true) : joinPath a b = a ++ b := by
  rw [joinPath, hb, hl]
  simp

theorem joinPath_no_slash_end (a b : Str) (hb : strStarts (str "/") b = false)
    (ha : a.isEmpty = false) (hl : (a.getLastD ' ' == '/') = false) :
    joinPath a b = a ++ '/' :: b := by
  rw [joinPath, hb, ha, hl]
  simp

theorem join_split (p : Str) (hp : isSub (str "//") p = false) :
    joinPath (dirname p) (basename p) = p := by
  by_cases hmem : '/' ∈ p
  · obtain ⟨d, b, hpeq, hb, hs⟩ := exists_last_slash p hmem
    have hbase : basename p = b := by rw [basename, hs]
    have hstb : strStarts (str "/") b = false := strStarts_slash_false b hb
    rcases hd : d.reverse with _ | ⟨x, xs⟩
    · have hdnil : d = [] := by
        have := congrArg List.reverse hd
        simpa using this
      subst hdnil
      have hdir : dirname p = ['/'] := by
        simp only [dirname, hs]
        simp
      rw [hdir, hbase, joinPath_slash_end ['/'] b hstb rfl, hpeq]
      rfl
    · have hxd : d = xs.reverse ++ [x] := by
        have := congrArg List.reverse hd
        simpa using this
      have hx : ¬ x = '/' := by
        intro he
        subst he
        have hpar : p = xs.reverse ++ str "//" ++ b := by
          rw [hpeq, hxd]
          simp [str]
        rw [hpar, isSub_of_parts] at hp
        cases hp
      have hxm : x ∈ d := by
        rw [hxd]
        simp
      have hall : (d ++ ['/']).all (fun c => c == '/') = false := by
        rcases ha : (d ++ ['/']).all (fun c => c == '/') with _ | _
        · rfl
        · have := List.all_eq_true.1 ha x (List.mem_append_left _ hxm)
          simp [hx] at this
      have hdir : dirname p = d := by
        simp only [dirname, hs]
        have hie : (d ++ ['/']).isEmpty = false := by simp
        rw [hie, hall]
        simp only [Bool.or_self, Bool.false_eq_true, if_false]
        rw [List.reverse_append]
        simp only [List.reverse_cons, List.reverse_nil, List.nil_append,
          List.singleton_append, List.dropWhile_cons]
        simp only [beq_self_eq_true, if_true]
        rw [hd]
        simp only [List.dropWhile_cons, hx]
        simp only [beq_iff_eq, hx, if_false]
        rw [← hd]
        simp
      have hde : d.isEmpty = false := by
        rw [hxd]
        simp
      have hlast : (d.getLastD ' ' == '/') = false := by
        rw [hxd, List.getLastD_concat]
        simpa using hx
      rw [hdir, hbase, joinPath_no_slash_end d b hstb hde hlast]
      exact hpeq.symm
  · have hs : splitSlash p = ([], p) := splitSlash_no_slash p hmem
    have hdir : dirname p = [] := by
      simp only [dirname, hs]
      simp
    have hbase : basename p = p := by rw [basename, hs]
    rw [hdir, hbase, joinPath_nil p (strStarts_slash_false p hmem)]

theorem file_in_ignore_dirs_eq_any (p : Str) (ig : List Str) :
    file_in_ignore_dirs p ig = ig.any (fun d => isSub d p) := by
  induction ig with
  | nil => rfl
  | cons d rest ih =>
    rw [file_in_ignore_dirs]
    rcases h : isSub d p with _ | _ <;> simp [h, ih]

theorem rdp_go_sublist (paths : List Str) :
    ∀ seen, List.Sublist (remove_duplicate_paths_go paths seen) paths := by
  induction paths with
  | nil =>
    intro seen
    simp [remove_duplicate_paths_go]
  | cons p rest ih =>
    intro seen
    rw [remove_duplicate_paths_go]
    split
    · exact List.Sublist.cons p (ih seen)
    · exact List.Sublist.cons₂ p (ih (normpath p :: seen))

theorem rdp_go_keys_fresh (paths : List Str) :
    ∀ seen k, k ∈ (remove_duplicate_paths_go paths seen).map normpath → k ∉ seen := by
  induction paths with
  | nil =>
    intro seen k hk
    simp [remove_duplicate_paths_go] at hk
  | cons p rest ih =>
    intro seen k hk
    rw [remove_duplicate_paths_go] at hk
    split at hk
    · exact ih seen k hk
    · rename_i hns
      simp only [List.map_cons, List.mem_cons] at hk
      rcases hk with he | hm
      · exact he ▸ hns
      · intro hs
        exact ih (normpath p :: seen) k hm (List.mem_cons_of_mem _ hs)

theorem rdp_go_keys_nodup (paths : List Str) :
    ∀ seen, ((remove_duplicate_paths_go paths seen).map normpath).Nodup := by
  induction paths with
  | nil =>
    intro seen
    simp [remove_duplicate_paths_go]
  | cons p rest ih =>
    intro seen
    rw [remove_duplicate_paths_go]
    split
    · exact ih seen
    · simp only [List.map_cons, List.nodup_cons]
      refine ⟨?_, ih (normpath p :: seen)⟩
      intro hm
      exact rdp_go_keys_fresh rest (normpath p :: seen) (normpath p) hm
        (List.mem_cons_self _ _)

theorem rdp_go_covers (paths : List Str) :
    ∀ seen p, p ∈ paths → normpath p ∈ seen ∨
      normpath p ∈ (remove_duplicate_paths_go paths seen).map normpath := by
  induction paths with
  | nil =>
    intro seen p hp
    exact absurd hp (List.not_mem_nil p)
  | cons q rest ih =>
    intro seen p hp
    rw [remove_duplicate_paths_go]
    rcases List.mem_cons.1 hp with he | hm
    · subst he
      split
      · rename_i hin
        exact Or.inl hin
      · right
        simp
    · split
      · exact ih seen p hm
      · rcases ih (normpath q :: seen) p hm with hin | hout
        · rcases List.mem_cons.1 hin with he | hs
          · right
            rw [he]
            simp
          · exact Or.inl hs
        · right
          simp only [List.map_cons, List.mem_cons]
          exact Or.inr hout

theorem rdp_go_first (paths : List Str) :
    ∀ seen pre p post, paths = pre ++ p :: post →
      (∀ q ∈ pre, normpath q ≠ normpath p) → normpath p ∉ seen →
      p ∈ remove_duplicate_paths_go paths seen := by
  induction paths with
  | nil =>
    intro seen pre p post heq _ _
    exact absurd heq.symm (by simp)
  | cons a rest ih =>
    intro seen pre p post heq hpre hseen
    cases pre with
    | nil =>
      simp only [List.nil_append, List.cons.injEq] at heq
      obtain ⟨h1, _⟩ := heq
      subst h1
      rw [remove_duplicate_paths_go, if_neg hseen]
      exact List.mem_cons_self _ _
    | cons q pre' =>
      simp only [List.cons_append, List.cons.injEq] at heq
      obtain ⟨h1, h2⟩ := heq
      subst h1
      have hqp : normpath a ≠ normpath p := hpre a (List.mem_cons_self _ _)
      have hpre' : ∀ x ∈ pre', normpath x ≠ normpath p :=
        fun x hx => hpre x (List.mem_cons_of_mem _ hx)
      rw [remove_duplicate_paths_go]
      split
      · exact ih seen pre' p post h2 hpre' hseen
      · refine List.mem_cons_of_mem _ (ih _ pre' p post h2 hpre' ?_)
        intro hm
        rcases List.mem_cons.1 hm with he | hm'
        · exact hqp he.symm
        · exact hseen hm'

theorem scanFiles_overflow (fs : Fs) (exts : List Str) (ms mts : Int)
    (ig : List Str) (root fn : Str) (rest : List Str) (files : List ScrapeFile)
    (total : Int) (count : Nat) (f : ScrapeFile)
    (h1 : file_in_ignore_dirs (joinPath root fn) ig = false)
    (h2 : scrape_file fs (joinPath root fn) exts ms = some f)
    (h3 : total + get_file_size fs (joinPath root fn) > mts) :
    scanFiles fs exts ms mts ig root (fn :: rest) (files, total, count) =
      (files ++ [f], total + get_file_size fs (joinPath root fn), count) := by
  rw [scanFiles]
  simp only [h1, Bool.false_eq_true, if_false, h2]
  rw [if_pos h3]

theorem scrape_directories_go_break (fs : Fs) (exts : List Str) (ms mts : Int)
    (ig : List Str) (d : Str) (rest : List Str) (files : List ScrapeFile)
    (total : Int) (count : Nat)
    (h : total + (scrape_directory fs d exts ms mts ig).2.1 > mts) :
    scrape_directories_go fs exts ms mts ig (d :: rest) (files, total, count) =
      (files ++ (scrape_directory fs d exts ms mts ig).1,
        total + (scrape_directory fs d exts ms mts ig).2.1,
        count + (scrape_directory fs d exts ms mts ig).2.2) := by
  rw [scrape_directories_go]
  dsimp only
  rw [if_pos h]

theorem scanRootsE_err_take (fs : Fs) (exts : List Str) (ms mts : Int)
    (ig : List Str) :
    ∀ entries k st, runWalk (scanRootsE fs exts ms mts ig entries (some k) st) =
      runWalk (scanRootsE fs exts ms mts ig (entries.take k) none st) := by
  intro entries
  induction entries with
  | nil =>
    intro k st
    cases k <;> rfl
  | cons e rest ih =>
    obtain ⟨root, fns⟩ := e
    intro k st
    cases k with
    | zero => rfl
    | succ n =>
      rw [List.take_succ_cons]
      rw [scanRootsE, scanRootsE]
      exact ih n _

theorem get_file_extension_eq_spec (filename : Str) :
    get_file_extension filename = spec_ext filename := by
  simp only [get_file_extension, spec_ext]
  by_cases hmem : '.' ∈ filename
  · have hlen : 1 < (splitOnChar '.' filename).length :=
      (splitOnChar_length '.' filename).2 hmem
    have hc : filename.contains '.' = true := List.elem_iff.2 hmem
    rw [if_pos hlen, if_pos hc, splitOnChar_getLastD]
  · have hlen : ¬ 1 < (splitOnChar '.' filename).length :=
      fun h => hmem ((splitOnChar_length '.' filename).1 h)
    have hc : ¬ filename.contains '.' = true := fun h => hmem (List.elem_iff.1 h)
    rw [if_neg hlen, if_neg hc]

theorem scrape_directories_count (fs : Fs) (dirs : List Str) (exts : List Str)
    (ms mts : Int) (ig : List Str) :
    (scrape_directories fs dirs exts ms mts ig).2.2 ≤
      (scrape_directories fs dirs exts ms mts ig).1.length := by
  simp only [scrape_directories]
  refine scrape_directories_go_pres fs exts ms mts ig
    (fun st => st.2.2 ≤ st.1.length) ?_ dirs ([], 0, 0) (by simp)
  intro st d hP
  have h2 := scrape_directory_count fs d exts ms mts ig
  dsimp only
  simp only [List.length_append]
  omega

/-- Claim C1, counterexample: the claim says that once the running total
exceeds maxTotalSize, scanning of the entire directory stops immediately.
On `fsNest` with maxTotalSize 100, the inner loop over the first walk root
already overflows at `b.py` (total 110, counter left at 1), yet the file
`c.py` of the subsequent walk root `d/sub` is still scraped, because the
`break` only leaves the inner filename loop while `os.walk` goes on. -/
theorem c1_counterexample :
    scanFiles fsNest [str "py"] 1000 100 [] (str "d") [str "a.py", str "b.py"]
      ([], 0, 0) = ([fileA, fileB], 110, 1) ∧
    scrape_directory fsNest (str "d") [str "py"] 1000 100 [] =
      ([fileA, fileB, fileC], 150, 1) := by
  constructor <;> decide

/-- Claim C1, amended: when an accepted file pushes the running total
over maxTotalSize, the inner enumeration of the current walk root stops
at once — the overflow file is kept in the file list and in the total but
the per-directory counter is not incremented for it — while the outer
walk still proceeds to the remaining roots of the same directory; and the
cross-directory orchestrator scans no further directory once the global
running total exceeds maxTotalSize. -/
theorem c1_cutoff_amended (fs : Fs) (exts : List Str) (ms mts : Int) (ig : List Str)
    (root fn : Str) (rest : List Str) (files : List ScrapeFile) (total : Int)
    (count : Nat) (f : ScrapeFile) (fns : List Str)
    (entries : List (Str × List Str)) (st : St) (d : Str) (restD : List Str)
    (files2 : List ScrapeFile) (total2 : Int) (count2 : Nat)
    (h1 : file_in_ignore_dirs (joinPath root fn) ig = false)
    (h2 : scrape_file fs (joinPath root fn) exts ms = some f)
    (h3 : total + get_file_size fs (joinPath root fn) > mts)
    (h4 : total2 + (scrape_directory fs d exts ms mts ig).2.1 > mts) :
    scanFiles fs exts ms mts ig root (fn :: rest) (files, total, count) =
      (files ++ [f], total + get_file_size fs (joinPath root fn), count) ∧
    runWalk (scanRootsE fs exts ms mts ig ((root, fns) :: entries) none st) =
      runWalk (scanRootsE fs exts ms mts ig entries none
        (scanFiles fs exts ms mts ig root fns st)) ∧
    scrape_directories_go fs exts ms mts ig (d :: restD) (files2, total2, count2) =
      (files2 ++ (scrape_directory fs d exts ms mts ig).1,
        total2 + (scrape_directory fs d exts ms mts ig).2.1,
        count2 + (scrape_directory fs d exts ms mts ig).2.2) :=
  ⟨scanFiles_overflow fs exts ms mts ig root fn rest files total count f h1 h2 h3,
   rfl,
   scrape_directories_go_break fs exts ms mts ig d restD files2 total2 count2 h4⟩

/-- Claim C1, witness: the amended cutoff behavior at a concrete input on
`fsNest`, where `b.py` overflows the 100-byte cap after `a.py`. -/
theorem c1_cutoff_amended_witness :
    scanFiles fsNest [str "py"] 1000 100 [] (str "d") [str "b.py", str "zz"]
      ([fileA], 60, 1) = ([fileA] ++ [fileB],
        60 + get_file_size fsNest (joinPath (str "d") (str "b.py")), 1) ∧
    runWalk (scanRootsE fsNest [str "py"] 1000 100 []
        [(str "d", [str "a.py", str "b.py"]), (str "d/sub", [str "c.py"])] none
        ([], 0, 0)) =
      runWalk (scanRootsE fsNest [str "py"] 1000 100 [] [(str "d/sub", [str "c.py"])]
        none (scanFiles fsNest [str "py"] 1000 100 [] (str "d")
          [str "a.py", str "b.py"] ([], 0, 0))) ∧
    scrape_directories_go fsNest [str "py"] 1000 100 [] [str "d", str "e"]
        ([], 0, 0) =
      ([] ++ (scrape_directory fsNest (str "d") [str "py"] 1000 100 []).1,
        0 + (scrape_directory fsNest (str "d") [str "py"] 1000 100 []).2.1,
        0 + (scrape_directory fsNest (str "d") [str "py"] 1000 100 []).2.2) :=
  c1_cutoff_amended fsNest [str "py"] 1000 100 [] (str "d") (str "b.py") [str "zz"]
    [fileA] 60 1 fileB [str "a.py", str "b.py"]
    [(str "d/sub", [str "c.py"])] ([], 0, 0) (str "d") [str "e"] [] 0 0
    (by decide) (by decide) (by decide) (by decide)

/-- Claim C2: on the spec's scenario (docs/ with a.py of 50 bytes, b.txt
of 30 bytes, sub/c.py of 20 bytes, extensions "py", both caps 1000) the
claim expects file_count 2, files a.py and sub/c.py, total_size 70.  The
program instead produces an empty result, because main normalizes the
default empty ignore-dirs string through normpath into ".", which then
substring-matches every candidate path containing a dot.  The second
conjunct shows the walk itself does produce the expected result when the
ignore list is genuinely empty, isolating the defect to main's
normalization of the empty ignore argument. -/
theorem c2_scenario_eval :
    main fsDocs (str "py") (str "docs") (str "") 1000 1000 =
      MainOutcome.ok ([], 0, 0) ∧
    scrape_directories fsDocs [str "docs"] [str "py"] 1000 1000 [] =
      ([{ name := str "a.py", directory := str "docs", content := str "A",
          size := 50, scraped_at := str "T" },
        { name := str "c.py", directory := str "docs/sub", content := str "C",
          size := 20, scraped_at := str "T" }], 70, 2) := by
  constructor <;> decide

/-- Claim C3: for every run, the reported total size equals the sum of
the size fields of the records in the returned file list, both for a
single per-directory walk and for the cross-directory aggregate. -/
theorem c3_total_size_eq_sum (fs : Fs) (d : Str) (dirs : List Str)
    (exts : List Str) (ms mts : Int) (ig : List Str) :
    (scrape_directory fs d exts ms mts ig).2.1 =
      sizeSum (scrape_directory fs d exts ms mts ig).1 ∧
    (scrape_directories fs dirs exts ms mts ig).2.1 =
      sizeSum (scrape_directories fs dirs exts ms mts ig).1 :=
  ⟨scrape_directory_total fs d exts ms mts ig,
   scrape_directories_total fs dirs exts ms mts ig⟩

/-- Claim C4: every record emitted by a run has positive size at most
maxFileSize, and a candidate whose stat-ed size is zero, negative, or
above maxFileSize is rejected by scrape_file. -/
theorem c4_size_bounds (fs : Fs) (dirs : List Str) (exts : List Str)
    (N mts : Int) (ig : List Str) (f : ScrapeFile)
    (hf : f ∈ (scrape_directories fs dirs exts N mts ig).1) :
    (0 < f.size ∧ f.size ≤ N) ∧
    (∀ fp s, fs.stat fp = some s → s ≤ 0 ∨ s > N →
      scrape_file fs fp exts N = none) := by
  refine ⟨?_, fun fp s hs hbad => scrape_file_bad_size fs fp exts N s hs hbad⟩
  obtain ⟨d, _, hmem⟩ := scrape_directories_mem fs dirs exts N mts ig f hf
  obtain ⟨root, fns, fn, _, _, _, hsf⟩ :=
    scrape_directory_mem fs d exts N mts ig f hmem
  obtain ⟨_, hpos, hle, _⟩ := scrape_file_some _ _ _ _ _ hsf
  exact ⟨hpos, hle⟩

/-- Claim C4, witness: the 60-byte record `fileA` emitted on `fsNest`
satisfies the bounds, and the 5000-byte file `d/big.py` is rejected under
maxFileSize 1000. -/
theorem c4_size_bounds_witness :
    (0 < fileA.size ∧ fileA.size ≤ 1000) ∧
    scrape_file fsNest (str "d/big.py") [str "py"] 1000 = none :=
  ⟨(c4_size_bounds fsNest [str "d"] [str "py"] 1000 100 [] fileA (by decide)).1,
   (c4_size_bounds fsNest [str "d"] [str "py"] 1000 100 [] fileA (by decide)).2
     (str "d/big.py") 5000 (by decide) (by decide)⟩

/-- Claim C5: provided the walk presents candidate paths without
repeated separators, no emitted record's full candidate path (its
directory joined with its name) contains any ignore-list entry as a
substring; the ignore test is plain substring containment over the full
path, and in particular it is not path-segment-aware: the entry "src"
also matches the path "src2/file.py". -/
theorem c5_ignore_substring (fs : Fs) (dirs : List Str) (exts : List Str)
    (ms mts : Int) (ig : List Str)
    (hclean : ∀ d ∈ dirs, ∀ e ∈ fs.walk d, ∀ fn ∈ e.2,
      isSub (str "//") (joinPath e.1 fn) = false)
    (f : ScrapeFile) (hf : f ∈ (scrape_directories fs dirs exts ms mts ig).1) :
    file_in_ignore_dirs (joinPath f.directory f.name) ig = false ∧
    (∀ p igl, file_in_ignore_dirs p igl = igl.any (fun dd => isSub dd p)) ∧
    file_in_ignore_dirs (str "src2/file.py") [str "src"] = true := by
  refine ⟨?_, fun p igl => file_in_ignore_dirs_eq_any p igl, by decide⟩
  obtain ⟨d, hd, hmem⟩ := scrape_directories_mem fs dirs exts ms mts ig f hf
  obtain ⟨root, fns, fn, he, hfn, hig, hsf⟩ :=
    scrape_directory_mem fs d exts ms mts ig f hmem
  obtain ⟨_, _, _, hname, hdir, _⟩ := scrape_file_some _ _ _ _ _ hsf
  have hcl := hclean d hd (root, fns) he fn hfn
  rw [hname, hdir, join_split _ hcl]
  exact hig

/-- Claim C5, witness: the record `fileA` emitted on `fsNest` under the
ignore list ["zzz"] has a candidate path free of the ignore entry. -/
theorem c5_ignore_substring_witness :
    file_in_ignore_dirs (joinPath fileA.directory fileA.name) [str "zzz"] = false :=
  (c5_ignore_substring fsNest [str "d"] [str "py"] 1000 100 [str "zzz"]
    (by decide) fileA (by decide)).1

/-- Claim C6: the extracted extension is exactly the substring after the
last dot of the filename (empty when no dot is present), and the
extension gate accepts a candidate at this step precisely when that value
is a member of the extension set under exact comparison; when it is not a
member, scrape_file rejects the candidate. -/
theorem c6_extension_check (fs : Fs) (filename : Str) (exts : List Str)
    (ms : Int) :
    get_file_extension filename = spec_ext filename ∧
    (confirm_extension filename exts = true ↔ spec_ext filename ∈ exts) ∧
    (spec_ext filename ∉ exts → scrape_file fs filename exts ms = none) := by
  have he := get_file_extension_eq_spec filename
  refine ⟨he, ?_, ?_⟩
  · rw [confirm_extension, he]
    exact decide_eq_true_iff
  · intro h
    exact scrape_file_bad_ext fs filename exts ms (by rw [he]; exact h)

/-- Claim C6, witness: a filename with a non-matching extension is
rejected, and a filename whose suffix after the last dot is "py" passes
the extension gate. -/
theorem c6_extension_check_witness :
    scrape_file fsNest (str "d/a.txt") [str "py"] 1000 = none ∧
    confirm_extension (str "a.py") [str "py"] = true :=
  ⟨(c6_extension_check fsNest (str "d/a.txt") [str "py"] 1000).2.2 (by decide),
   ((c6_extension_check fsNest (str "a.py") [str "py"] 1000).2.1).2 (by decide)⟩

/-- Claim C7: the path deduplicator returns a sublist of its input (so
retained entries are the original strings in their original relative
order), the normalized forms of the output are pairwise distinct, every
input path's normalized form is represented in the output, every first
occurrence of a normalized form is retained, and the list ["a", "./a"]
deduplicates to ["a"]. -/
theorem c7_dedup (paths : List Str) :
    List.Sublist (remove_duplicate_paths paths) paths ∧
    ((remove_duplicate_paths paths).map normpath).Nodup ∧
    (∀ p ∈ paths, normpath p ∈ (remove_duplicate_paths paths).map normpath) ∧
    (∀ pre p post, paths = pre ++ p :: post →
      (∀ q ∈ pre, normpath q ≠ normpath p) → p ∈ remove_duplicate_paths paths) ∧
    remove_duplicate_paths [str "a", str "./a"] = [str "a"] := by
  refine ⟨rdp_go_sublist paths [], rdp_go_keys_nodup paths [], ?_, ?_, by decide⟩
  · intro p hp
    rcases rdp_go_covers paths [] p hp with h | h
    · exact absurd h (List.not_mem_nil _)
    · exact h
  · intro pre p post heq hpre
    exact rdp_go_first paths [] pre p post heq hpre (List.not_mem_nil _)

/-- Claim C7, witness: the first occurrence "a" is retained when
deduplicating ["a", "./a"]. -/
theorem c7_dedup_witness :
    str "a" ∈ remove_duplicate_paths [str "a", str "./a"] :=
  (c7_dedup [str "a", str "./a"]).2.2.2.1 [] (str "a") [str "./a"] rfl
    (fun q hq => absurd hq (List.not_mem_nil q))

/-- Claim C8: the reported file count never exceeds the length of the
returned file list, for each per-directory walk and for the final
cross-directory aggregate. -/
theorem c8_count_le_length (fs : Fs) (d : Str) (dirs : List Str)
    (exts : List Str) (ms mts : Int) (ig : List Str) :
    (scrape_directory fs d exts ms mts ig).2.2 ≤
      (scrape_directory fs d exts ms mts ig).1.length ∧
    (scrape_directories fs dirs exts ms mts ig).2.2 ≤
      (scrape_directories fs dirs exts ms mts ig).1.length :=
  ⟨scrape_directory_count fs d exts ms mts ig,
   scrape_directories_count fs dirs exts ms mts ig⟩

/-- Claim C9: a failing stat or a failing read makes scrape_file reject
the candidate instead of propagating the failure, and a walk enumeration
that raises after k entries makes scrape_directory return exactly what an
error-free walk over those first k entries accumulates (an error-free
enumeration processes the whole walk). -/
theorem c9_errors_swallowed (fs : Fs) (d : Str) (exts : List Str) (ms mts : Int)
    (ig : List Str) (k : Nat) (fp : Str) :
    (fs.stat fp = none → scrape_file fs fp exts ms = none) ∧
    (fs.readf fp = none → scrape_file fs fp exts ms = none) ∧
    (fs.walkErr d = some k →
      scrape_directory fs d exts ms mts ig =
        walk_accumulate fs exts ms mts ig ((fs.walk d).take k)) ∧
    (fs.walkErr d = none →
      scrape_directory fs d exts ms mts ig =
        walk_accumulate fs exts ms mts ig (fs.walk d)) := by
  refine ⟨fun h => scrape_file_stat_none fs fp exts ms h,
    fun h => scrape_file_read_none fs fp exts ms h, ?_, ?_⟩
  · intro h
    rw [scrape_directory, h, scanRootsE_err_take, walk_accumulate]
  · intro h
    rw [scrape_directory, h, walk_accumulate]

/-- Claim C9, witness: on `fsErr`, where every stat and read raises and
the enumeration of `r` raises before its first entry, scrape_file rejects
and scrape_directory returns the empty accumulation. -/
theorem c9_errors_swallowed_witness :
    scrape_file fsErr (str "x.py") [str "py"] 10 = none ∧
    scrape_directory fsErr (str "r") [str "py"] 10 10 [] =
      walk_accumulate fsErr [str "py"] 10 10 [] ((fsErr.walk (str "r")).take 0) :=
  ⟨(c9_errors_swallowed fsErr (str "r") [str "py"] 10 10 [] 0 (str "x.py")).1 rfl,
   (c9_errors_swallowed fsErr (str "r") [str "py"] 10 10 [] 0 (str "x.py")).2.2.1
     (by decide)⟩

/-- Claim C10: remove_dot_from_extension raises an IndexError on the
empty extension token (modelled as none), and main therefore crashes
during extension normalization — before either fatal-configuration check
— whenever the extensions argument is empty or has a trailing comma,
since splitting such a value yields an empty token. -/
theorem c10_empty_extension_crash (fs : Fs) (dirs_arg ignore_arg : Str)
    (ms mts : Int) :
    remove_dot_from_extension [] = none ∧
    main fs [] dirs_arg ignore_arg ms mts = MainOutcome.indexError ∧
    main fs (str "py,") dirs_arg ignore_arg ms mts = MainOutcome.indexError :=
  ⟨rfl, rfl, rfl⟩

end Scrape
